import Mathlib

/-!
Verification development for the IPA-based polynomial commitment engine
(`src/prover/src/provider/ipa_pc.rs`).

The scalar field `F`, the group `G` (an `F`-module, written additively), and the
Fiat–Shamir transcript are the external collaborators of the core; they are kept
abstract.  Compressed commitments are identified with commitments (compression
is a round-trippable encoding), and the byte encodings used by the transcript
are abstract functions bundled in a context `Ctx`.  Rust panics (`unwrap` of a
failed inversion, `ilog2` of zero, out-of-bounds indexing) are modelled as
explicit error values.
-/

deriving instance DecidableEq for Except

namespace IpaPC

/-- Transcript operations and byte encodings seen by the core.  `domSep`,
`absorb` and `squeeze` model `TranscriptEngineTrait`; `encG` and `encF` model
`to_transcript_bytes` of (compressed) commitments and scalars. -/
structure Ctx (F G S : Type) where
  domSep : List Nat → S → S
  absorb : List Nat → List Nat → S → S
  squeeze : List Nat → S → Option (F × S)
  encG : G → List Nat
  encF : F → List Nat

/-- The ASCII bytes of the protocol name label IPA. -/
def lblIPA : List Nat := [73, 80, 65]

/-- The ASCII byte of the label U. -/
def lblU : List Nat := [85]

/-- The ASCII byte of the challenge label r. -/
def lblSmallR : List Nat := [114]

/-- The ASCII byte of the label L. -/
def lblL : List Nat := [76]

/-- The ASCII byte of the label R. -/
def lblBigR : List Nat := [82]

/-- Structural helper for `ilog2`: the fuel bounds the number of halvings. -/
def ilog2Fuel : Nat → Nat → Nat
  | 0, _ => 0
  | fuel + 1, n => if 2 ≤ n then ilog2Fuel fuel (n / 2) + 1 else 0

/-- The base-2 integer logarithm `usize::ilog2` (floor of log₂), in a form the
kernel can evaluate; `ilog2_eq_log2` identifies it with `Nat.log2`. -/
def ilog2 (n : Nat) : Nat := ilog2Fuel n n

/-- Error outcomes of a `prove`/`verify` call.  `invalidInputLength`,
`invalidPCS` and `transcriptErr` mirror `NovaError` variants; `invertZero`
models the `unwrap` panic when a squeezed challenge is zero; `outOfRange`
models the other Rust panics (`ilog2` of zero, indexing an empty vector);
`batchInvertZero` models `batch_invert` failing on a zero input. -/
inductive Err where
  | invalidInputLength
  | invalidPCS
  | transcriptErr
  | invertZero
  | outOfRange
  | batchInvertZero
  deriving DecidableEq

variable {F : Type} [Field F] {G : Type} [AddCommGroup G] [Module F G] {S : Type}

/-- Modelled from the spec: the Pedersen commitment engine of §3 and §6,
`commit(ck, v) = Σ vᵢ • Gᵢ` (the engine itself lives outside `src/`). -/
def commit (ck : List G) (v : List F) : G :=
  (List.zipWith (fun (x : F) (g : G) => x • g) v ck).sum

/-- The inner product `⟨a, b⟩` of `ipa_pc.rs` (`inner_product`). -/
def innerProduct (a b : List F) : F := (List.zipWith (fun x y => x * y) a b).sum

/-- An inner product instance: a commitment to `a`, the public vector `b`, and
the claimed inner product `c`. -/
structure InnerProductInstance (F G : Type) where
  comm_a_vec : G
  b_vec : List F
  c : F
  deriving DecidableEq

/-- The proof object: left and right (compressed) commitments and the folded
scalar. -/
structure InnerProductArgument (F G : Type) where
  L_vec : List G
  R_vec : List G
  a_hat : F
  deriving DecidableEq

/-- Transcript bytes of an instance: the commitment followed by the claimed
scalar; `b_vec` is deliberately excluded (`to_transcript_bytes`). -/
def instBytes (C : Ctx F G S) (U : InnerProductInstance F G) : List Nat :=
  C.encG U.comm_a_vec ++ C.encF U.c

/-- Modelled from the spec: `fold(ck_L, ck_R, u, v)` of §3 produces the key
with generators `u • G_L[i] + v • G_R[i]` (the key ops live outside `src/`). -/
def foldKey (u v : F) (ckL ckR : List G) : List G :=
  List.zipWith (fun gL gR => u • gL + v • gR) ckL ckR

/-- Modelled from the spec: field inversion of §6 fails exactly on zero
(`ff::Field::invert`). -/
def fieldInvert [DecidableEq F] (r : F) : Option F :=
  if r = 0 then none else some r⁻¹

/-- The cross inner product `c_L = ⟨a[0..n/2], b[n/2..n]⟩` of a folding round
(`n` is the length of `a`). -/
def roundCL (a b : List F) : F :=
  innerProduct (a.take (a.length / 2)) ((b.drop (a.length / 2)).take (a.length - a.length / 2))

/-- The cross inner product `c_R = ⟨a[n/2..n], b[0..n/2]⟩` of a folding round. -/
def roundCR (a b : List F) : F :=
  innerProduct (a.drop (a.length / 2)) (b.take (a.length / 2))

/-- The left commitment `L = commit(ck_R ∥ ck_c, a[0..n/2] ∥ [c_L])` of a
folding round. -/
def roundL (ck_c : List G) (a b : List F) (ck : List G) : G :=
  commit (ck.drop (a.length / 2) ++ ck_c) (a.take (a.length / 2) ++ [roundCL a b])

/-- The right commitment `R = commit(ck_L ∥ ck_c, a[n/2..n] ∥ [c_R])` of a
folding round. -/
def roundR (ck_c : List G) (a b : List F) (ck : List G) : G :=
  commit (ck.take (a.length / 2) ++ ck_c) (a.drop (a.length / 2) ++ [roundCR a b])

/-- The transcript state after absorbing `L` under label L and `R` under
label R in a folding round. -/
def roundSt (C : Ctx F G S) (ck_c : List G) (a b : List F) (ck : List G) (st : S) : S :=
  C.absorb lblBigR (C.encG (roundR ck_c a b ck))
    (C.absorb lblL (C.encG (roundL ck_c a b ck)) st)

/-- The folded witness vector `a' = r·a_L + r⁻¹·a_R`. -/
def foldVecA (r rinv : F) (a : List F) : List F :=
  List.zipWith (fun aL aR => aL * r + rinv * aR) (a.take (a.length / 2))
    (a.drop (a.length / 2))

/-- The folded public vector `b' = r⁻¹·b_L + r·b_R` (`n` is the length of the
witness vector `a`, whose halves bound the slices of `b` in the source). -/
def foldVecB (r rinv : F) (n : Nat) (b : List F) : List F :=
  List.zipWith (fun bL bR => bL * rinv + r * bR) (b.take (n / 2))
    ((b.drop (n / 2)).take (n - n / 2))

/-- One folding round of the recursive argument (the `prove_inner` closure of
`InnerProductArgument::prove`). -/
def proveInner [DecidableEq F] (C : Ctx F G S) (ck_c : List G) (a_vec b_vec : List F)
    (ck : List G) (st : S) : Except Err (G × G × List F × List F × List G × S) :=
  match C.squeeze lblSmallR (roundSt C ck_c a_vec b_vec ck st) with
  | none => .error .transcriptErr
  | some (r, st3) =>
    match fieldInvert r with
    | none => .error .invertZero
    | some r_inverse =>
      .ok (roundL ck_c a_vec b_vec ck, roundR ck_c a_vec b_vec ck,
        foldVecA r r_inverse a_vec, foldVecB r r_inverse a_vec.length b_vec,
        foldKey r_inverse r (ck.take (a_vec.length / 2)) (ck.drop (a_vec.length / 2)), st3)

/-- The prover's folding loop (`for _i in 0..ilog2` in
`InnerProductArgument::prove`), returning the collected `L`/`R` commitments,
the final folded witness vector, and the final transcript state. -/
def proveRounds [DecidableEq F] (C : Ctx F G S) (ck_c : List G) :
    Nat → List F → List F → List G → S → Except Err (List G × List G × List F × S)
  | 0, a_vec, _b_vec, _ck, st => .ok ([], [], a_vec, st)
  | k + 1, a_vec, b_vec, ck, st =>
    match proveInner C ck_c a_vec b_vec ck st with
    | .error e => .error e
    | .ok (L, R, aF, bF, ckF, st1) =>
      match proveRounds C ck_c k aF bF ckF st1 with
      | .error e => .error e
      | .ok (Ls, Rs, aFin, stF) => .ok (L :: Ls, R :: Rs, aFin, stF)

/-- `InnerProductArgument::prove`: emit the domain separator, truncate the key
to `|b|`, check `|b| = |a|`, absorb the instance, squeeze `r` and scale `ck_c`,
then run `ilog2 |b|` folding rounds and return `(L_vec, R_vec, a[0])`. -/
def ipaProve [DecidableEq F] (C : Ctx F G S) (ck ck_c : List G)
    (U : InnerProductInstance F G) (a_vec : List F) (st : S) :
    Except Err (InnerProductArgument F G × S) :=
  if U.b_vec.length ≠ a_vec.length then .error .invalidInputLength
  else
    match C.squeeze lblSmallR (C.absorb lblU (instBytes C U) (C.domSep lblIPA st)) with
    | none => .error .transcriptErr
    | some (r0, st2) =>
      if U.b_vec.length = 0 then .error .outOfRange
      else
        match proveRounds C (ck_c.map fun g => r0 • g) (ilog2 U.b_vec.length) a_vec U.b_vec
            (ck.take U.b_vec.length) st2 with
        | .error e => .error e
        | .ok (L_vec, R_vec, aFin, stF) =>
          match aFin with
          | [] => .error .outOfRange
          | aHat :: _ => .ok (⟨L_vec, R_vec, aHat⟩, stF)

/-- The verifier's challenge-replay loop: absorb each `(Lᵢ, Rᵢ)` and squeeze a
challenge (`InnerProductArgument::verify`, the `r` vector). -/
def verifyChallenges (C : Ctx F G S) : List (G × G) → S → Option (List F × S)
  | [], st => some ([], st)
  | (L, R) :: rest, st =>
    let st1 := C.absorb lblL (C.encG L) st
    let st2 := C.absorb lblBigR (C.encG R) st1
    match C.squeeze lblSmallR st2 with
    | none => none
    | some (r, st3) =>
      match verifyChallenges C rest st3 with
      | none => none
      | some (rs, stF) => some (r :: rs, stF)

/-- The verifier's tensor vector `s`: `s[0]` is the product of the inverted
challenges and `s[i] = s[i - 2^⌊log₂ i⌋] * r_square[ℓ - 1 - ⌊log₂ i⌋]`,
exactly as built by the loop in `InnerProductArgument::verify`. -/
def buildS (rs : List F) (n : Nat) : List F :=
  (List.range n).foldl
    (fun s i =>
      if i = 0 then s ++ [(rs.map fun r => r⁻¹).foldl (fun x y => x * y) 1]
      else
        let pos := ilog2 i
        s ++ [s.getD (i - 2 ^ pos) 0 *
          (rs.getD (rs.length - 1 - pos) 0 * rs.getD (rs.length - 1 - pos) 0)])
    []

/-- The up-front structural precondition of `InnerProductArgument::verify`:
`|b| ≠ n`, or `n ≠ 2^|L_vec|`, or `|L_vec| ≠ |R_vec|`, or `|L_vec| ≥ 32`. -/
def lenCheckFails (blen n lL lR : Nat) : Prop :=
  blen ≠ n ∨ n ≠ 2 ^ lL ∨ lL ≠ lR ∨ 32 ≤ lL

instance (blen n lL lR : Nat) : Decidable (lenCheckFails blen n lL lR) := by
  unfold lenCheckFails; infer_instance

/-- The augmented commitment `P = C_a + commit(ck_c, [c])` of the verifier. -/
def verifyP (ck_c2 : List G) (U : InnerProductInstance F G) : G :=
  U.comm_a_vec + commit ck_c2 [U.c]

/-- The verifier's recombined commitment
`P̂ = commit(L_vec ∥ R_vec ∥ [P], r² ∥ r⁻² ∥ [1])`. -/
def verifyPhat (rs : List F) (L_vec R_vec : List G) (P : G) : G :=
  commit (L_vec ++ R_vec ++ [P])
    ((rs.map fun r => r * r) ++ ((rs.map fun r => r⁻¹).map fun t => t * t) ++ [1])

/-- The right-hand side of the final verifier equation
`commit(ĉk ∥ ck_c, [â, â·b̂])` with `ĉk = [commit(ck, s)]`. -/
def verifyRhs (ckT ck_c2 : List G) (s : List F) (aHat bHat : F) : G :=
  commit ([commit ckT s] ++ ck_c2) [aHat, aHat * bHat]

/-- `InnerProductArgument::verify`: truncate the key, emit the domain
separator, run the up-front length check, absorb the instance, squeeze `r` and
scale `ck_c`, replay the challenges, batch-invert them, build `s` and check the
final group equation. -/
def ipaVerify [DecidableEq F] [DecidableEq G] (C : Ctx F G S) (ck ck_c : List G) (n : Nat)
    (U : InnerProductInstance F G) (arg : InnerProductArgument F G) (st : S) :
    Except Err (Unit × S) :=
  if lenCheckFails U.b_vec.length n arg.L_vec.length arg.R_vec.length then
    .error .invalidInputLength
  else
    match C.squeeze lblSmallR (C.absorb lblU (instBytes C U) (C.domSep lblIPA st)) with
    | none => .error .transcriptErr
    | some (r0, st2) =>
      match verifyChallenges C (arg.L_vec.zip arg.R_vec) st2 with
      | none => .error .transcriptErr
      | some (rs, st3) =>
        if (0 : F) ∈ rs then .error .batchInvertZero
        else
          if verifyPhat rs arg.L_vec arg.R_vec (verifyP (ck_c.map fun g => r0 • g) U)
              = verifyRhs (ck.take U.b_vec.length) (ck_c.map fun g => r0 • g) (buildS rs n)
                  arg.a_hat (innerProduct U.b_vec (buildS rs n))
          then .ok ((), st3)
          else .error .invalidPCS

/-- Modelled from the spec: `EqPolynomial::evals_from_points` (§3, outside
`src/`): the length-`2^ℓ` vector whose `i`-th entry is
`Π_{j : bit j of i = 1} x_j · Π_{j : bit j of i = 0} (1 - x_j)`. -/
def eqEvals (x : List F) : List F :=
  (List.range (2 ^ x.length)).map fun i =>
    ∏ j ∈ Finset.range x.length, if Nat.testBit i j then x.getD j 0 else 1 - x.getD j 0

/-- The closed-form tensor coefficient: for challenges `r₀ … r_{ℓ-1}`,
`tensorVal rs i = Π_{j<ℓ} (r_j if bit (ℓ-1-j) of i is set, else r_j⁻¹)`. -/
def tensorVal (rs : List F) (i : Nat) : F :=
  ∏ j ∈ Finset.range rs.length,
    if Nat.testBit i (rs.length - 1 - j) then rs.getD j 0 else (rs.getD j 0)⁻¹

/-- The length-`n` list of closed-form tensor coefficients. -/
def tensor (rs : List F) (n : Nat) : List F := (List.range n).map (tensorVal rs)

/-- `EvaluationEngine::prove`: reduce the evaluation claim to an inner-product
claim over `eq(x)` and run the IPA prover. -/
def EEprove [DecidableEq F] (C : Ctx F G S) (ck ck_s : List G) (comm : G)
    (poly point : List F) (ev : F) (st : S) :
    Except Err (InnerProductArgument F G × S) :=
  ipaProve C ck ck_s ⟨comm, eqEvals point, ev⟩ poly st

/-- `EvaluationEngine::verify`: rebuild the instance and run the IPA verifier
with `n = 1 <<< |point|`. -/
def EEverify [DecidableEq F] [DecidableEq G] (C : Ctx F G S) (ck ck_s : List G) (comm : G)
    (point : List F) (ev : F) (arg : InnerProductArgument F G) (st : S) :
    Except Err (Unit × S) :=
  ipaVerify C ck ck_s (2 ^ point.length) ⟨comm, eqEvals point, ev⟩ arg st

/-- The three-element field `GF(3)` realised on `Fin 3`, where every element is
its own inverse; all operations reduce by kernel computation, which makes
concrete protocol runs decidable. -/
instance : Field (Fin 3) :=
  { (inferInstance : CommRing (Fin 3)) with
    inv := fun x => x
    div := fun a b => a * b
    div_eq_mul_inv := by decide
    exists_pair_ne := ⟨0, 1, by decide⟩
    mul_inv_cancel := by decide
    inv_zero := by decide
    nnqsmul := _
    qsmul := _ }

/-- A concrete deterministic transcript over `Fin 3` whose squeezes always
succeed with the nonzero challenge `1`; used to instantiate theorems with
hypotheses on concrete inputs. -/
def ctxOne : Ctx (Fin 3) (Fin 3) Unit :=
  ⟨fun _ s => s, fun _ _ s => s, fun _ s => some (1, s), fun _ => [], fun _ => []⟩

/-- A concrete deterministic transcript over `Fin 3` whose squeezes always
succeed but always return the challenge `0`. -/
def ctxZero : Ctx (Fin 3) (Fin 3) Unit :=
  ⟨fun _ s => s, fun _ _ s => s, fun _ s => some (0, s), fun _ => [], fun _ => []⟩

theorem ilog2Fuel_eq_log2 (f : Nat) : ∀ n : Nat, n ≤ f → ilog2Fuel f n = Nat.log2 n := by
  induction f with
  | zero =>
    intro n hn
    have h0 : n = 0 := Nat.le_zero.mp hn
    subst h0
    simp [ilog2Fuel, Nat.log2]
  | succ f ih =>
    intro n hn
    by_cases h2 : 2 ≤ n
    · have hdiv : n / 2 ≤ f := by
        have := Nat.div_lt_self (by omega : 0 < n) (by omega : 1 < 2)
        omega
      rw [ilog2Fuel, if_pos h2, ih _ hdiv]
      conv_rhs => rw [Nat.log2]
      rw [if_pos h2]
    · rw [ilog2Fuel, if_neg h2]
      conv_rhs => rw [Nat.log2]
      rw [if_neg h2]

theorem ilog2_eq_log2 (n : Nat) : ilog2 n = Nat.log2 n :=
  ilog2Fuel_eq_log2 n n (Nat.le_refl n)

section BasicLemmas

variable {F : Type} [Field F] {G : Type} [AddCommGroup G] [Module F G] {S : Type}

theorem commit_nil_key (v : List F) : commit ([] : List G) v = 0 := by
  simp [commit]

theorem commit_nil_vec (ck : List G) : commit ck ([] : List F) = 0 := by
  simp [commit]

theorem commit_cons (g : G) (ck : List G) (x : F) (v : List F) :
    commit (g :: ck) (x :: v) = x • g + commit ck v := by
  simp [commit]

theorem commit_singleton (g : G) (x : F) : commit [g] [x] = x • g := by
  simp [commit]

theorem commit_pair (g1 g2 : G) (x1 x2 : F) :
    commit [g1, g2] [x1, x2] = x1 • g1 + x2 • g2 := by
  simp [commit]

theorem commit_append (ck1 ck2 : List G) (v1 v2 : List F) (h : v1.length = ck1.length) :
    commit (ck1 ++ ck2) (v1 ++ v2) = commit ck1 v1 + commit ck2 v2 := by
  unfold commit
  rw [List.zipWith_append _ _ _ _ _ h, List.sum_append]

theorem commit_take (ck : List G) (v : List F) :
    commit (ck.take v.length) v = commit ck v := by
  induction v generalizing ck with
  | nil => simp [commit]
  | cons x xs ih =>
    cases ck with
    | nil => simp [commit]
    | cons g gs =>
      simp only [List.length_cons, List.take_succ_cons, commit_cons, ih]

theorem commit_split (ck : List G) (v : List F) (m : Nat)
    (h : (v.take m).length = (ck.take m).length) :
    commit ck v = commit (ck.take m) (v.take m) + commit (ck.drop m) (v.drop m) := by
  conv_lhs => rw [← List.take_append_drop m ck, ← List.take_append_drop m v]
  rw [commit_append _ _ _ _ h]

theorem innerProduct_nil_left (b : List F) : innerProduct ([] : List F) b = 0 := by
  simp [innerProduct]

theorem innerProduct_cons (x y : F) (a b : List F) :
    innerProduct (x :: a) (y :: b) = x * y + innerProduct a b := by
  simp [innerProduct]

theorem innerProduct_singleton (x y : F) : innerProduct [x] [y] = x * y := by
  simp [innerProduct]

theorem innerProduct_append (a1 a2 b1 b2 : List F) (h : a1.length = b1.length) :
    innerProduct (a1 ++ a2) (b1 ++ b2) = innerProduct a1 b1 + innerProduct a2 b2 := by
  unfold innerProduct
  rw [List.zipWith_append _ _ _ _ _ h, List.sum_append]

theorem innerProduct_split (a b : List F) (m : Nat)
    (h : (a.take m).length = (b.take m).length) :
    innerProduct a b = innerProduct (a.take m) (b.take m)
      + innerProduct (a.drop m) (b.drop m) := by
  conv_lhs => rw [← List.take_append_drop m a, ← List.take_append_drop m b]
  rw [innerProduct_append _ _ _ _ h]

theorem commit_fold_expand (r rinv : F) (h : r * rinv = 1) :
    ∀ (aL aR : List F) (ckL ckR : List G), aL.length = aR.length →
      aL.length = ckL.length → ckL.length = ckR.length →
      commit (foldKey rinv r ckL ckR) (List.zipWith (fun x y => x * r + rinv * y) aL aR)
        = commit ckL aL + commit ckR aR
          + (r * r) • commit ckR aL + (rinv * rinv) • commit ckL aR
  | [], aR, ckL, ckR, h1, h2, h3 => by
    have hR : aR = [] := List.length_eq_zero.mp (h1.symm ▸ rfl)
    have hL : ckL = [] := List.length_eq_zero.mp (h2.symm ▸ rfl)
    have hRk : ckR = [] := List.length_eq_zero.mp (h3 ▸ hL ▸ rfl)
    subst hR hL hRk
    simp [foldKey, commit]
  | x :: aL, aR, ckL, ckR, h1, h2, h3 => by
    match aR, ckL, ckR, h1, h2, h3 with
    | y :: aR, gL :: ckL, gR :: ckR, h1, h2, h3 =>
      have ih := commit_fold_expand r rinv h aL aR ckL ckR
        (by simpa using h1) (by simpa using h2) (by simpa using h3)
      simp only [foldKey, List.zipWith_cons_cons, commit_cons] at ih ⊢
      rw [ih]
      match_scalars
      · linear_combination x * h
      · linear_combination y * h
      all_goals ring

theorem innerProduct_fold_expand (r rinv : F) (h : r * rinv = 1) :
    ∀ (aL aR bL bR : List F), aL.length = aR.length →
      aL.length = bL.length → bL.length = bR.length →
      innerProduct (List.zipWith (fun x y => x * r + rinv * y) aL aR)
          (List.zipWith (fun x y => x * rinv + r * y) bL bR)
        = innerProduct aL bL + innerProduct aR bR
          + (r * r) * innerProduct aL bR + (rinv * rinv) * innerProduct aR bL
  | [], aR, bL, bR, h1, h2, h3 => by
    have hR : aR = [] := List.length_eq_zero.mp (h1.symm ▸ rfl)
    have hL : bL = [] := List.length_eq_zero.mp (h2.symm ▸ rfl)
    have hRk : bR = [] := List.length_eq_zero.mp (h3 ▸ hL ▸ rfl)
    subst hR hL hRk
    simp [innerProduct]
  | x :: aL, aR, bL, bR, h1, h2, h3 => by
    match aR, bL, bR, h1, h2, h3 with
    | y :: aR, u :: bL, v :: bR, h1, h2, h3 =>
      have ih := innerProduct_fold_expand r rinv h aL aR bL bR
        (by simpa using h1) (by simpa using h2) (by simpa using h3)
      simp only [List.zipWith_cons_cons, innerProduct_cons] at ih ⊢
      rw [ih]
      linear_combination (x * u + y * v) * h

theorem commit_foldKey_expand (u v : F) :
    ∀ (s : List F) (ckL ckR : List G), s.length = ckL.length → ckL.length = ckR.length →
      commit (foldKey u v ckL ckR) s
        = commit ckL (s.map fun t => u * t) + commit ckR (s.map fun t => v * t)
  | [], ckL, ckR, h1, h2 => by
    have hL : ckL = [] := List.length_eq_zero.mp (h1.symm ▸ rfl)
    have hR : ckR = [] := List.length_eq_zero.mp (h2 ▸ hL ▸ rfl)
    subst hL hR
    simp [foldKey, commit]
  | t :: s, ckL, ckR, h1, h2 => by
    match ckL, ckR, h1, h2 with
    | gL :: ckL, gR :: ckR, h1, h2 =>
      have ih := commit_foldKey_expand u v s ckL ckR
        (by simpa using h1) (by simpa using h2)
      simp only [foldKey, List.zipWith_cons_cons, List.map_cons, commit_cons] at ih ⊢
      rw [ih]
      module

theorem innerProduct_foldb_expand (u v : F) :
    ∀ (bL bR s : List F), bL.length = bR.length → bL.length = s.length →
      innerProduct (List.zipWith (fun x y => x * u + v * y) bL bR) s
        = innerProduct bL (s.map fun t => u * t) + innerProduct bR (s.map fun t => v * t)
  | [], bR, s, h1, h2 => by
    have hR : bR = [] := List.length_eq_zero.mp (h1.symm ▸ rfl)
    subst hR
    simp [innerProduct]
  | x :: bL, bR, s, h1, h2 => by
    match bR, s, h1, h2 with
    | y :: bR, t :: s, h1, h2 =>
      have ih := innerProduct_foldb_expand u v bL bR s
        (by simpa using h1) (by simpa using h2)
      simp only [List.zipWith_cons_cons, List.map_cons, innerProduct_cons] at ih ⊢
      rw [ih]
      ring

end BasicLemmas

section TensorLemmas

variable {F : Type} [Field F]

theorem prod_map_getD (f : F → F) (l : List F) :
    (l.map f).prod = ∏ j ∈ Finset.range l.length, f (l.getD j 0) := by
  induction l with
  | nil => simp
  | cons x xs ih =>
    rw [List.map_cons, List.prod_cons, ih, List.length_cons, Finset.prod_range_succ']
    simp only [List.getD_cons_succ, List.getD_cons_zero]
    rw [mul_comm]

theorem tensorVal_zeroIdx (rs : List F) : tensorVal rs 0 = (rs.map fun r => r⁻¹).prod := by
  unfold tensorVal
  rw [prod_map_getD]
  exact Finset.prod_congr rfl fun j _ => by rw [Nat.zero_testBit, if_neg Bool.false_ne_true]

theorem getD_ne_zero_of_lt (rs : List F) (hnz : ∀ r ∈ rs, r ≠ 0) {j : Nat}
    (hj : j < rs.length) : rs.getD j 0 ≠ 0 := by
  rw [List.getD_eq_getElem?_getD, List.getElem?_eq_getElem hj]
  exact hnz _ (List.getElem_mem hj)

theorem inv_mul_sq_cancel (r P : F) (hr : r ≠ 0) : (r⁻¹ * P) * (r * r) = r * P := by
  calc (r⁻¹ * P) * (r * r) = (r⁻¹ * r) * (r * P) := by ring
  _ = 1 * (r * P) := by rw [inv_mul_cancel₀ hr]
  _ = r * P := one_mul _

theorem tensorVal_step (rs : List F) (hnz : ∀ r ∈ rs, r ≠ 0) (m : Nat)
    (h1 : 1 ≤ m) (h2 : m < 2 ^ rs.length) :
    tensorVal rs m
      = tensorVal rs (m - 2 ^ Nat.log2 m)
        * (rs.getD (rs.length - 1 - Nat.log2 m) 0 * rs.getD (rs.length - 1 - Nat.log2 m) 0) := by
  have hm0 : m ≠ 0 := by omega
  obtain ⟨k, hk⟩ : ∃ k, Nat.log2 m = k := ⟨_, rfl⟩
  rw [hk]
  have hkl : k < rs.length := hk ▸ (Nat.log2_lt hm0).mpr h2
  have hpow : 2 ^ k ≤ m := hk ▸ Nat.log2_self_le hm0
  have hlt : m < 2 ^ (k + 1) := hk ▸ Nat.lt_log2_self
  have hpows : (2 : Nat) ^ (k + 1) = 2 ^ k + 2 ^ k := by ring
  have him : m = 2 ^ k + (m - 2 ^ k) := by omega
  have hi2 : m - 2 ^ k < 2 ^ k := by omega
  have hbit_k_m : Nat.testBit m k = true := by
    conv_lhs => rw [him]
    rw [Nat.testBit_two_pow_add_eq, Nat.testBit_eq_false_of_lt hi2]
    rfl
  have hbit_k_i : Nat.testBit (m - 2 ^ k) k = false :=
    Nat.testBit_eq_false_of_lt hi2
  have hbit_ne : ∀ t, t ≠ k → Nat.testBit m t = Nat.testBit (m - 2 ^ k) t := by
    intro t ht
    rcases Nat.lt_or_ge t k with hlt2 | hge
    · conv_lhs => rw [him]
      rw [Nat.testBit_two_pow_add_gt hlt2]
    · have htk : k < t := by omega
      have hmt : m < 2 ^ t := by
        calc m < 2 ^ (k + 1) := hlt
        _ ≤ 2 ^ t := Nat.pow_le_pow_right (by omega) (by omega)
      rw [Nat.testBit_eq_false_of_lt hmt,
        Nat.testBit_eq_false_of_lt (lt_trans hi2 (lt_of_le_of_lt hpow hmt))]
  have hj0mem : rs.length - 1 - k ∈ Finset.range rs.length := by
    rw [Finset.mem_range]; omega
  have hj0pos : rs.length - 1 - (rs.length - 1 - k) = k := by omega
  have hcongr : ∀ j ∈ (Finset.range rs.length).erase (rs.length - 1 - k),
      (if Nat.testBit m (rs.length - 1 - j) then rs.getD j 0 else (rs.getD j 0)⁻¹)
        = (if Nat.testBit (m - 2 ^ k) (rs.length - 1 - j) then rs.getD j 0
            else (rs.getD j 0)⁻¹) := by
    intro j hj
    rw [Finset.mem_erase, Finset.mem_range] at hj
    have hne : rs.length - 1 - j ≠ k := by omega
    rw [hbit_ne _ hne]
  have hr0 : rs.getD (rs.length - 1 - k) 0 ≠ 0 :=
    getD_ne_zero_of_lt rs hnz (by omega)
  unfold tensorVal
  rw [← Finset.mul_prod_erase _ _ hj0mem, ← Finset.mul_prod_erase _ _ hj0mem,
    Finset.prod_congr rfl hcongr, hj0pos, hbit_k_m, hbit_k_i, if_pos rfl,
    if_neg Bool.false_ne_true]
  exact (inv_mul_sq_cancel _ _ hr0).symm

theorem buildS_zero (rs : List F) : buildS rs 0 = [] := rfl

theorem buildS_succ (rs : List F) (n : Nat) :
    buildS rs (n + 1)
      = if n = 0 then buildS rs n ++ [(rs.map fun r => r⁻¹).foldl (fun x y => x * y) 1]
        else buildS rs n ++ [(buildS rs n).getD (n - 2 ^ ilog2 n) 0 *
          (rs.getD (rs.length - 1 - ilog2 n) 0 * rs.getD (rs.length - 1 - ilog2 n) 0)] := by
  unfold buildS
  rw [List.range_succ, List.foldl_append, List.foldl_cons, List.foldl_nil]

theorem buildS_length (rs : List F) (n : Nat) : (buildS rs n).length = n := by
  induction n with
  | zero => rfl
  | succ n ih =>
    rw [buildS_succ]
    split <;> simp [ih]

theorem buildS_getD_lt (rs : List F) {n i : Nat} (h : i < n) :
    (buildS rs (n + 1)).getD i 0 = (buildS rs n).getD i 0 := by
  have hlen : i < (buildS rs n).length := by rw [buildS_length]; exact h
  rw [buildS_succ]
  split <;>
    rw [List.getD_eq_getElem?_getD, List.getElem?_append_left hlen,
      ← List.getD_eq_getElem?_getD]

theorem buildS_getD_spec (rs : List F) (hnz : ∀ r ∈ rs, r ≠ 0) :
    ∀ n, n ≤ 2 ^ rs.length → ∀ i, i < n → (buildS rs n).getD i 0 = tensorVal rs i := by
  intro n
  induction n with
  | zero => intro _ i hi; omega
  | succ n ih =>
    intro hn i hi
    rcases Nat.lt_or_ge i n with hlt | hge
    · rw [buildS_getD_lt rs hlt]
      exact ih (by omega) i hlt
    · have hieq : i = n := by omega
      subst hieq
      rcases Nat.eq_zero_or_pos i with h0 | hpos
      · subst h0
        rw [buildS_succ, if_pos rfl, buildS_zero, List.nil_append, List.getD_cons_zero,
          tensorVal_zeroIdx, List.prod_eq_foldl]
      · rw [buildS_succ, if_neg (by omega : ¬ i = 0)]
        have hlen : (buildS rs i).length = i := buildS_length rs i
        rw [List.getD_eq_getElem?_getD,
          List.getElem?_append_right (by omega : (buildS rs i).length ≤ i), hlen,
          Nat.sub_self, List.getElem?_cons_zero, Option.getD_some, ilog2_eq_log2]
        have h2pow : (1 : Nat) ≤ 2 ^ Nat.log2 i := Nat.one_le_two_pow
        have hrec : (buildS rs i).getD (i - 2 ^ Nat.log2 i) 0
            = tensorVal rs (i - 2 ^ Nat.log2 i) := ih (by omega) _ (by omega)
        rw [hrec]
        exact (tensorVal_step rs hnz i hpos (by omega)).symm

theorem buildS_eq_tensor (rs : List F) (hnz : ∀ r ∈ rs, r ≠ 0) (n : Nat)
    (hn : n ≤ 2 ^ rs.length) : buildS rs n = tensor rs n := by
  have hlen2 : (tensor rs n).length = n := by simp [tensor]
  apply List.ext_getElem (by rw [buildS_length, hlen2])
  intro i h1 h2
  rw [← List.getD_eq_getElem (buildS rs n) 0 h1, ← List.getD_eq_getElem (tensor rs n) 0 h2,
    buildS_getD_spec rs hnz n hn i (by rwa [buildS_length] at h1)]
  unfold tensor
  rw [List.getD_eq_getElem?_getD, List.getElem?_map, List.getElem?_range
    (by rwa [hlen2] at h2), Option.map_some', Option.getD_some]

theorem tensorVal_cons_lo (r : F) (rs : List F) {i : Nat} (hi : i < 2 ^ rs.length) :
    tensorVal (r :: rs) i = r⁻¹ * tensorVal rs i := by
  have key : tensorVal (r :: rs) i
      = (∏ j ∈ Finset.range rs.length,
          if Nat.testBit i (rs.length + 1 - 1 - (j + 1)) then (r :: rs).getD (j + 1) 0
          else ((r :: rs).getD (j + 1) 0)⁻¹)
        * (if Nat.testBit i (rs.length + 1 - 1 - 0) then (r :: rs).getD 0 0
            else ((r :: rs).getD 0 0)⁻¹) := by
    unfold tensorVal
    rw [List.length_cons, Finset.prod_range_succ']
  have hprod : (∏ j ∈ Finset.range rs.length,
      if Nat.testBit i (rs.length + 1 - 1 - (j + 1)) then (r :: rs).getD (j + 1) 0
      else ((r :: rs).getD (j + 1) 0)⁻¹) = tensorVal rs i := by
    unfold tensorVal
    refine Finset.prod_congr rfl fun j hj => ?_
    rw [Finset.mem_range] at hj
    have hpos : rs.length + 1 - 1 - (j + 1) = rs.length - 1 - j := by omega
    rw [hpos, List.getD_cons_succ]
  have hf0 : (if Nat.testBit i (rs.length + 1 - 1 - 0) then (r :: rs).getD 0 0
      else ((r :: rs).getD 0 0)⁻¹) = r⁻¹ := by
    have hp : rs.length + 1 - 1 - 0 = rs.length := by omega
    rw [hp, Nat.testBit_eq_false_of_lt hi, if_neg Bool.false_ne_true, List.getD_cons_zero]
  rw [key, hprod, hf0, mul_comm]

theorem tensorVal_cons_hi (r : F) (rs : List F) {i : Nat} (hi : i < 2 ^ rs.length) :
    tensorVal (r :: rs) (2 ^ rs.length + i) = r * tensorVal rs i := by
  have key : tensorVal (r :: rs) (2 ^ rs.length + i)
      = (∏ j ∈ Finset.range rs.length,
          if Nat.testBit (2 ^ rs.length + i) (rs.length + 1 - 1 - (j + 1))
          then (r :: rs).getD (j + 1) 0 else ((r :: rs).getD (j + 1) 0)⁻¹)
        * (if Nat.testBit (2 ^ rs.length + i) (rs.length + 1 - 1 - 0)
            then (r :: rs).getD 0 0 else ((r :: rs).getD 0 0)⁻¹) := by
    unfold tensorVal
    rw [List.length_cons, Finset.prod_range_succ']
  have hprod : (∏ j ∈ Finset.range rs.length,
      if Nat.testBit (2 ^ rs.length + i) (rs.length + 1 - 1 - (j + 1))
      then (r :: rs).getD (j + 1) 0 else ((r :: rs).getD (j + 1) 0)⁻¹) = tensorVal rs i := by
    unfold tensorVal
    refine Finset.prod_congr rfl fun j hj => ?_
    rw [Finset.mem_range] at hj
    have hpos : rs.length + 1 - 1 - (j + 1) = rs.length - 1 - j := by omega
    have hlt : rs.length - 1 - j < rs.length := by omega
    rw [hpos, List.getD_cons_succ, Nat.testBit_two_pow_add_gt hlt]
  have hf0 : (if Nat.testBit (2 ^ rs.length + i) (rs.length + 1 - 1 - 0)
      then (r :: rs).getD 0 0 else ((r :: rs).getD 0 0)⁻¹) = r := by
    have hp : rs.length + 1 - 1 - 0 = rs.length := by omega
    rw [hp, Nat.testBit_two_pow_add_eq, Nat.testBit_eq_false_of_lt hi, Bool.not_false,
      if_pos rfl, List.getD_cons_zero]
  rw [key, hprod, hf0, mul_comm]

theorem tensor_cons (r : F) (rs : List F) :
    tensor (r :: rs) (2 ^ (rs.length + 1))
      = ((tensor rs (2 ^ rs.length)).map fun t => r⁻¹ * t)
        ++ ((tensor rs (2 ^ rs.length)).map fun t => r * t) := by
  unfold tensor
  rw [show (2 : Nat) ^ (rs.length + 1) = 2 ^ rs.length + 2 ^ rs.length from by ring,
    List.range_add, List.map_append, List.map_map, List.map_map, List.map_map]
  congr 1
  · refine List.map_congr_left fun i hi => ?_
    rw [List.mem_range] at hi
    simp only [Function.comp_apply]
    exact tensorVal_cons_lo r rs hi
  · refine List.map_congr_left fun i hi => ?_
    rw [List.mem_range] at hi
    simp only [Function.comp_apply]
    exact tensorVal_cons_hi r rs hi

theorem tensor_length (rs : List F) (n : Nat) : (tensor rs n).length = n := by
  simp [tensor]

theorem tensor_one (rs : List F) (h : rs = []) : tensor rs 1 = [1] := by
  subst h
  simp only [tensor, List.range_succ, List.range_zero, List.nil_append, List.map_cons,
    List.map_nil, tensorVal, List.length_nil, Finset.range_zero, Finset.prod_empty]

end TensorLemmas

section ProverRun

variable {F : Type} [Field F] [DecidableEq F] {G : Type} [AddCommGroup G] [Module F G] {S : Type}

theorem proveInner_ok (C : Ctx F G S) (ck_c : List G) (a b : List F) (ck : List G)
    (st : S) (r : F) (st3 : S)
    (hrs : C.squeeze lblSmallR (roundSt C ck_c a b ck st) = some (r, st3))
    (hrne : r ≠ 0) :
    proveInner C ck_c a b ck st
      = .ok (roundL ck_c a b ck, roundR ck_c a b ck, foldVecA r r⁻¹ a,
          foldVecB r r⁻¹ a.length b,
          foldKey r⁻¹ r (ck.take (a.length / 2)) (ck.drop (a.length / 2)), st3) := by
  unfold proveInner fieldInvert
  rw [hrs]
  simp only [if_neg hrne]

theorem foldVecA_length (r rinv : F) (a : List F) :
    (foldVecA r rinv a).length = a.length / 2 := by
  unfold foldVecA
  rw [List.length_zipWith, List.length_take, List.length_drop]
  omega

theorem foldVecB_length (r rinv : F) (n : Nat) (b : List F) (hn : b.length = n) :
    (foldVecB r rinv n b).length = n / 2 := by
  unfold foldVecB
  rw [List.length_zipWith, List.length_take, List.length_take, List.length_drop]
  omega

theorem foldKey_length (u v : F) (ckL ckR : List G) :
    (foldKey u v ckL ckR).length = min ckL.length ckR.length :=
  List.length_zipWith _ _ _

theorem proveRounds_succ (C : Ctx F G S) (ck_c : List G) (k : Nat) (a b : List F)
    (ck : List G) (st : S) :
    proveRounds C ck_c (k + 1) a b ck st
      = match proveInner C ck_c a b ck st with
        | .error e => .error e
        | .ok (L, R, aF, bF, ckF, st1) =>
          match proveRounds C ck_c k aF bF ckF st1 with
          | .error e => .error e
          | .ok (Ls, Rs, aFin, stF) => .ok (L :: Ls, R :: Rs, aFin, stF) := rfl

theorem verifyChallenges_cons (C : Ctx F G S) (L R : G) (rest : List (G × G)) (st : S) :
    verifyChallenges C ((L, R) :: rest) st
      = match C.squeeze lblSmallR (C.absorb lblBigR (C.encG R) (C.absorb lblL (C.encG L) st))
          with
        | none => none
        | some (r, st3) =>
          match verifyChallenges C rest st3 with
          | none => none
          | some (rs, stF) => some (r :: rs, stF) := rfl

theorem proveRounds_spec (C : Ctx F G S) (gc : G)
    (hsq : ∀ st : S, ∃ r st2, C.squeeze lblSmallR st = some (r, st2) ∧ r ≠ 0) :
    ∀ (k : Nat) (a b : List F) (ck : List G) (st : S),
      a.length = 2 ^ k → b.length = 2 ^ k → ck.length = 2 ^ k →
      ∃ Ls Rs aH stF rs,
        proveRounds C [gc] k a b ck st = .ok (Ls, Rs, [aH], stF)
        ∧ verifyChallenges C (Ls.zip Rs) st = some (rs, stF)
        ∧ Ls.length = k ∧ Rs.length = k ∧ rs.length = k
        ∧ (∀ x ∈ rs, x ≠ 0)
        ∧ commit ck a + innerProduct a b • gc
            + ((rs.zip Ls).map fun p => (p.1 * p.1) • p.2).sum
            + ((rs.zip Rs).map fun p => (p.1⁻¹ * p.1⁻¹) • p.2).sum
          = aH • commit ck (tensor rs (2 ^ k))
            + (aH * innerProduct b (tensor rs (2 ^ k))) • gc := by
  intro k
  induction k with
  | zero =>
    intro a b ck st ha hb hck
    obtain ⟨aH, haH⟩ := List.length_eq_one.mp (by rw [ha]; norm_num)
    obtain ⟨b0, hb0⟩ := List.length_eq_one.mp (by rw [hb]; norm_num)
    obtain ⟨g0, hg0⟩ := List.length_eq_one.mp (by rw [hck]; norm_num)
    subst haH hb0 hg0
    refine ⟨[], [], aH, st, [], rfl, rfl, rfl, rfl, rfl, by simp, ?_⟩
    have h20 : (2 : Nat) ^ 0 = 1 := rfl
    rw [h20, tensor_one _ rfl]
    simp only [List.zip_nil_left, List.map_nil, List.sum_nil, add_zero]
    rw [commit_singleton, commit_singleton, innerProduct_singleton, innerProduct_singleton]
    match_scalars <;> ring
  | succ k ih =>
    intro a b ck st ha hb hck
    have h2 : (2 : Nat) ^ (k + 1) = 2 ^ k + 2 ^ k := by ring
    have hhalf : a.length / 2 = 2 ^ k := by omega
    have hrest : a.length - a.length / 2 = 2 ^ k := by omega
    obtain ⟨r, st3, hrs, hrne⟩ := hsq (roundSt C [gc] a b ck st)
    have hinv : r * r⁻¹ = 1 := mul_inv_cancel₀ hrne
    have hPI := proveInner_ok C [gc] a b ck st r st3 hrs hrne
    have haF : (foldVecA r r⁻¹ a).length = 2 ^ k := by rw [foldVecA_length]; omega
    have hbF : (foldVecB r r⁻¹ a.length b).length = 2 ^ k := by
      rw [foldVecB_length _ _ _ b (by omega)]; omega
    have hckF : (foldKey r⁻¹ r (ck.take (a.length / 2))
        (ck.drop (a.length / 2))).length = 2 ^ k := by
      rw [foldKey_length, List.length_take, List.length_drop]; omega
    obtain ⟨Ls, Rs, aH, stF, rs, hPR, hVC, hLs, hRs, hrslen, hnz, heq⟩ :=
      ih (foldVecA r r⁻¹ a) (foldVecB r r⁻¹ a.length b) _ st3 haF hbF hckF
    have hlen_aL : (a.take (a.length / 2)).length = 2 ^ k := by
      rw [List.length_take]; omega
    have hlen_aR : (a.drop (a.length / 2)).length = 2 ^ k := by
      rw [List.length_drop]; omega
    have hlen_bL : (b.take (a.length / 2)).length = 2 ^ k := by
      rw [List.length_take]; omega
    have hlen_bR : (b.drop (a.length / 2)).length = 2 ^ k := by
      rw [List.length_drop]; omega
    have hlen_ckL : (ck.take (a.length / 2)).length = 2 ^ k := by
      rw [List.length_take]; omega
    have hlen_ckR : (ck.drop (a.length / 2)).length = 2 ^ k := by
      rw [List.length_drop]; omega
    have hbdrop : (b.drop (a.length / 2)).take (a.length - a.length / 2)
        = b.drop (a.length / 2) :=
      List.take_of_length_le (by rw [List.length_drop]; omega)
    have hroundL : roundL [gc] a b ck
        = commit (ck.drop (a.length / 2)) (a.take (a.length / 2))
          + innerProduct (a.take (a.length / 2)) (b.drop (a.length / 2)) • gc := by
      unfold roundL roundCL
      rw [hbdrop, commit_append _ _ _ _ (by rw [hlen_aL, hlen_ckR]), commit_singleton]
    have hroundR : roundR [gc] a b ck
        = commit (ck.take (a.length / 2)) (a.drop (a.length / 2))
          + innerProduct (a.drop (a.length / 2)) (b.take (a.length / 2)) • gc := by
      unfold roundR roundCR
      rw [commit_append _ _ _ _ (by rw [hlen_aR, hlen_ckL]), commit_singleton]
    have hcommit_ck : commit ck a
        = commit (ck.take (a.length / 2)) (a.take (a.length / 2))
          + commit (ck.drop (a.length / 2)) (a.drop (a.length / 2)) :=
      commit_split ck a (a.length / 2) (by rw [hlen_aL, hlen_ckL])
    have hip_ab : innerProduct a b
        = innerProduct (a.take (a.length / 2)) (b.take (a.length / 2))
          + innerProduct (a.drop (a.length / 2)) (b.drop (a.length / 2)) :=
      innerProduct_split a b (a.length / 2) (by rw [hlen_aL, hlen_bL])
    have hstep : commit (foldKey r⁻¹ r (ck.take (a.length / 2)) (ck.drop (a.length / 2)))
          (foldVecA r r⁻¹ a)
        + innerProduct (foldVecA r r⁻¹ a) (foldVecB r r⁻¹ a.length b) • gc
        = commit ck a + innerProduct a b • gc
          + (r * r) • roundL [gc] a b ck + (r⁻¹ * r⁻¹) • roundR [gc] a b ck := by
      unfold foldVecA foldVecB
      rw [hbdrop]
      rw [commit_fold_expand r r⁻¹ hinv (a.take (a.length / 2)) (a.drop (a.length / 2))
          (ck.take (a.length / 2)) (ck.drop (a.length / 2))
          (by rw [hlen_aL, hlen_aR]) (by rw [hlen_aL, hlen_ckL]) (by rw [hlen_ckL, hlen_ckR]),
        innerProduct_fold_expand r r⁻¹ hinv (a.take (a.length / 2)) (a.drop (a.length / 2))
          (b.take (a.length / 2)) (b.drop (a.length / 2))
          (by rw [hlen_aL, hlen_aR]) (by rw [hlen_aL, hlen_bL]) (by rw [hlen_bL, hlen_bR]),
        hroundL, hroundR, hcommit_ck, hip_ab]
      match_scalars <;> ring
    have hrw : (2 : Nat) ^ (k + 1) = 2 ^ (rs.length + 1) := by rw [hrslen]
    have hT1 : commit (foldKey r⁻¹ r (ck.take (a.length / 2)) (ck.drop (a.length / 2)))
          (tensor rs (2 ^ k))
        = commit ck (tensor (r :: rs) (2 ^ (k + 1))) := by
      rw [commit_foldKey_expand r⁻¹ r (tensor rs (2 ^ k)) _ _
          (by rw [tensor_length, hlen_ckL]) (by rw [hlen_ckL, hlen_ckR]),
        hrw, tensor_cons, hrslen]
      conv_rhs => rw [← List.take_append_drop (a.length / 2) ck]
      rw [commit_append _ _ _ _ (by rw [List.length_map, tensor_length, hlen_ckL])]
    have hT2 : innerProduct (foldVecB r r⁻¹ a.length b) (tensor rs (2 ^ k))
        = innerProduct b (tensor (r :: rs) (2 ^ (k + 1))) := by
      unfold foldVecB
      rw [hbdrop]
      rw [innerProduct_foldb_expand r⁻¹ r (b.take (a.length / 2)) (b.drop (a.length / 2))
          (tensor rs (2 ^ k)) (by rw [hlen_bL, hlen_bR]) (by rw [hlen_bL, tensor_length]),
        hrw, tensor_cons, hrslen]
      conv_rhs => rw [← List.take_append_drop (a.length / 2) b]
      rw [innerProduct_append _ _ _ _ (by rw [List.length_map, tensor_length, hlen_bL])]
    refine ⟨roundL [gc] a b ck :: Ls, roundR [gc] a b ck :: Rs, aH, stF, r :: rs,
      ?_, ?_, by simp [hLs], by simp [hRs], by simp [hrslen], ?_, ?_⟩
    · rw [proveRounds_succ, hPI]
      simp only [hPR]
    · rw [List.zip_cons_cons, verifyChallenges_cons]
      unfold roundSt at hrs
      rw [hrs]
      simp only [hVC]
    · intro x hx
      rcases List.mem_cons.mp hx with h | h
      · subst h; exact hrne
      · exact hnz x h
    · rw [List.zip_cons_cons, List.zip_cons_cons, List.map_cons, List.map_cons,
        List.sum_cons, List.sum_cons]
      have hfinal := heq
      rw [hT1, hT2] at hfinal
      rw [← hfinal, hstep]
      abel

end ProverRun

section ErrorLemmas

variable {F : Type} [Field F] [DecidableEq F] {G : Type} [AddCommGroup G] [Module F G] {S : Type}

theorem proveInner_error (C : Ctx F G S) (ck_c : List G) (a b : List F) (ck : List G)
    (st : S) (e : Err) (h : proveInner C ck_c a b ck st = .error e) :
    e = .transcriptErr ∨ e = .invertZero := by
  unfold proveInner at h
  split at h
  · exact Or.inl (Except.error.inj h).symm
  · split at h
    · exact Or.inr (Except.error.inj h).symm
    · exact absurd h (by simp)

theorem proveRounds_error (C : Ctx F G S) (ck_c : List G) :
    ∀ (k : Nat) (a b : List F) (ck : List G) (st : S) (e : Err),
      proveRounds C ck_c k a b ck st = .error e →
      e = .transcriptErr ∨ e = .invertZero := by
  intro k
  induction k with
  | zero =>
    intro a b ck st e h
    exact absurd h (by simp [proveRounds])
  | succ k ih =>
    intro a b ck st e h
    rw [proveRounds_succ] at h
    cases hpi : proveInner C ck_c a b ck st with
    | error e2 =>
      rw [hpi] at h
      simp only at h
      exact (Except.error.inj h) ▸ proveInner_error C ck_c a b ck st e2 hpi
    | ok tup =>
      obtain ⟨L, R, aF, bF, ckF, st1⟩ := tup
      rw [hpi] at h
      simp only at h
      cases hpr : proveRounds C ck_c k aF bF ckF st1 with
      | error e2 =>
        rw [hpr] at h
        simp only at h
        exact (Except.error.inj h) ▸ ih aF bF ckF st1 e2 hpr
      | ok tup2 =>
        obtain ⟨Ls, Rs, aFin, stF⟩ := tup2
        rw [hpr] at h
        exact absurd h (by simp)

theorem ipaProve_invalidInputLength_iff (C : Ctx F G S) (ck ck_c : List G)
    (U : InnerProductInstance F G) (a : List F) (st : S) :
    ipaProve C ck ck_c U a st = .error .invalidInputLength ↔ U.b_vec.length ≠ a.length := by
  unfold ipaProve
  constructor
  · intro h
    by_contra hne
    rw [if_neg (not_ne_iff.mpr hne)] at h
    split at h
    · exact absurd (Except.error.inj h) (by decide)
    · split at h
      · exact absurd (Except.error.inj h) (by decide)
      · split at h
        · rename_i e heq
          rcases proveRounds_error C _ _ a U.b_vec _ _ e heq with h2 | h2 <;>
            rw [h2] at h <;> exact absurd (Except.error.inj h) (by decide)
        · split at h
          · exact absurd (Except.error.inj h) (by decide)
          · exact absurd h (by simp)
  · intro h
    rw [if_pos h]

theorem proveInner_ne_invertZero (C : Ctx F G S) (ck_c : List G)
    (hnz : ∀ (st2 : S) (r : F) (st3 : S), C.squeeze lblSmallR st2 = some (r, st3) → r ≠ 0)
    (a b : List F) (ck : List G) (st : S) :
    proveInner C ck_c a b ck st ≠ .error .invertZero := by
  intro h
  unfold proveInner at h
  split at h
  · exact absurd (Except.error.inj h) (by simp)
  · rename_i r st3 heq
    split at h
    · rename_i hfi
      unfold fieldInvert at hfi
      split at hfi
      · exact hnz _ r _ heq (by assumption)
      · exact absurd hfi (by simp)
    · exact absurd h (by simp)

theorem proveRounds_ne_invertZero (C : Ctx F G S) (ck_c : List G)
    (hnz : ∀ (st2 : S) (r : F) (st3 : S), C.squeeze lblSmallR st2 = some (r, st3) → r ≠ 0) :
    ∀ (k : Nat) (a b : List F) (ck : List G) (st : S),
      proveRounds C ck_c k a b ck st ≠ .error .invertZero := by
  intro k
  induction k with
  | zero =>
    intro a b ck st h
    exact absurd h (by simp [proveRounds])
  | succ k ih =>
    intro a b ck st h
    rw [proveRounds_succ] at h
    cases hpi : proveInner C ck_c a b ck st with
    | error e2 =>
      rw [hpi] at h
      simp only at h
      exact proveInner_ne_invertZero C ck_c hnz a b ck st
        ((Except.error.inj h) ▸ hpi)
    | ok tup =>
      obtain ⟨L, R, aF, bF, ckF, st1⟩ := tup
      rw [hpi] at h
      simp only at h
      cases hpr : proveRounds C ck_c k aF bF ckF st1 with
      | error e2 =>
        rw [hpr] at h
        simp only at h
        exact ih aF bF ckF st1 ((Except.error.inj h) ▸ hpr)
      | ok tup2 =>
        obtain ⟨Ls, Rs, aFin, stF⟩ := tup2
        rw [hpr] at h
        exact absurd h (by simp)

theorem ipaProve_ne_invertZero (C : Ctx F G S) (ck ck_c : List G)
    (U : InnerProductInstance F G) (a : List F) (st : S)
    (hnz : ∀ (st2 : S) (r : F) (st3 : S), C.squeeze lblSmallR st2 = some (r, st3) → r ≠ 0) :
    ipaProve C ck ck_c U a st ≠ .error .invertZero := by
  intro h
  unfold ipaProve at h
  split at h
  · exact absurd (Except.error.inj h) (by decide)
  · split at h
    · exact absurd (Except.error.inj h) (by decide)
    · split at h
      · exact absurd (Except.error.inj h) (by decide)
      · split at h
        · rename_i e heq
          exact proveRounds_ne_invertZero C _ hnz _ a U.b_vec _ _
            ((Except.error.inj h) ▸ heq)
        · split at h
          · exact absurd (Except.error.inj h) (by decide)
          · exact absurd h (by simp)

end ErrorLemmas

section VerifierLemmas

variable {F : Type} [Field F] [DecidableEq F] {G : Type} [AddCommGroup G] [Module F G]
variable [DecidableEq G] {S : Type}

theorem ipaVerify_invalidInputLength_iff (C : Ctx F G S) (ck ck_c : List G) (n : Nat)
    (U : InnerProductInstance F G) (arg : InnerProductArgument F G) (st : S) :
    ipaVerify C ck ck_c n U arg st = .error .invalidInputLength
      ↔ lenCheckFails U.b_vec.length n arg.L_vec.length arg.R_vec.length := by
  unfold ipaVerify
  constructor
  · intro h
    by_contra hne
    rw [if_neg hne] at h
    split at h
    · exact absurd (Except.error.inj h) (by decide)
    · split at h
      · exact absurd (Except.error.inj h) (by decide)
      · split at h
        · exact absurd (Except.error.inj h) (by decide)
        · split at h
          · exact absurd h (by simp)
          · exact absurd (Except.error.inj h) (by decide)
  · intro h
    rw [if_pos h]

theorem ipaVerify_final_eq (C : Ctx F G S) (ck ck_c : List G) (n : Nat)
    (U : InnerProductInstance F G) (arg : InnerProductArgument F G) (st : S)
    (hlen : ¬ lenCheckFails U.b_vec.length n arg.L_vec.length arg.R_vec.length)
    (r0 : F) (st2 : S)
    (hsq : C.squeeze lblSmallR (C.absorb lblU (instBytes C U) (C.domSep lblIPA st))
      = some (r0, st2))
    (rs : List F) (st3 : S)
    (hvc : verifyChallenges C (arg.L_vec.zip arg.R_vec) st2 = some (rs, st3))
    (hz : (0 : F) ∉ rs) :
    ipaVerify C ck ck_c n U arg st
      = if verifyPhat rs arg.L_vec arg.R_vec (verifyP (ck_c.map fun g => r0 • g) U)
            = verifyRhs (ck.take U.b_vec.length) (ck_c.map fun g => r0 • g) (buildS rs n)
                arg.a_hat (innerProduct U.b_vec (buildS rs n))
        then .ok ((), st3)
        else .error .invalidPCS := by
  unfold ipaVerify
  rw [if_neg hlen, hsq]
  simp only [hvc]
  rw [if_neg hz]

end VerifierLemmas

section SizeLemmas

variable {F : Type} [Field F] [DecidableEq F] {G : Type} [AddCommGroup G] [Module F G] {S : Type}

theorem log2_two_pow_self (l : Nat) : Nat.log2 (2 ^ l) = l := by
  have hp : 0 < (2 : Nat) ^ l := Nat.two_pow_pos l
  have hps : (2 : Nat) ^ (l + 1) = 2 ^ l + 2 ^ l := by ring
  have hp1 : 0 < (2 : Nat) ^ (l + 1) := Nat.two_pow_pos (l + 1)
  have h1 : l ≤ Nat.log2 (2 ^ l) := (Nat.le_log2 (by omega)).mpr (Nat.le_refl _)
  have h2 : Nat.log2 (2 ^ l) < l + 1 := (Nat.log2_lt (by omega)).mpr (by omega)
  omega

theorem proveRounds_lengths (C : Ctx F G S) (ck_c : List G) :
    ∀ (k : Nat) (a b : List F) (ck : List G) (st : S) (Ls Rs : List G) (aFin : List F)
      (stF : S), proveRounds C ck_c k a b ck st = .ok (Ls, Rs, aFin, stF) →
      Ls.length = k ∧ Rs.length = k := by
  intro k
  induction k with
  | zero =>
    intro a b ck st Ls Rs aFin stF h
    unfold proveRounds at h
    simp only [Except.ok.injEq, Prod.mk.injEq] at h
    obtain ⟨h1, h2, h3, h4⟩ := h
    simp [← h1, ← h2]
  | succ k ih =>
    intro a b ck st Ls Rs aFin stF h
    rw [proveRounds_succ] at h
    cases hpi : proveInner C ck_c a b ck st with
    | error e2 =>
      rw [hpi] at h
      exact absurd h (by simp)
    | ok tup =>
      obtain ⟨L, R, aF, bF, ckF, st1⟩ := tup
      rw [hpi] at h
      simp only at h
      cases hpr : proveRounds C ck_c k aF bF ckF st1 with
      | error e2 =>
        rw [hpr] at h
        exact absurd h (by simp)
      | ok tup2 =>
        obtain ⟨Ls2, Rs2, aFin2, stF2⟩ := tup2
        rw [hpr] at h
        simp only [Except.ok.injEq, Prod.mk.injEq] at h
        obtain ⟨hL, hR, _, _⟩ := h
        obtain ⟨hl2, hr2⟩ := ih aF bF ckF st1 Ls2 Rs2 aFin2 stF2 hpr
        constructor
        · rw [← hL, List.length_cons, hl2]
        · rw [← hR, List.length_cons, hr2]

theorem ipaProve_sizes (C : Ctx F G S) (ck ck_c : List G) (U : InnerProductInstance F G)
    (a : List F) (st : S) (arg : InnerProductArgument F G) (stF : S)
    (h : ipaProve C ck ck_c U a st = .ok (arg, stF)) :
    arg.L_vec.length = Nat.log2 U.b_vec.length
      ∧ arg.R_vec.length = Nat.log2 U.b_vec.length := by
  unfold ipaProve at h
  split at h
  · exact absurd h (by simp)
  · split at h
    · exact absurd h (by simp)
    · rename_i r0 st2 hsq
      split at h
      · exact absurd h (by simp)
      · split at h
        · exact absurd h (by simp)
        · rename_i Ls Rs aFin stF2 hpr
          split at h
          · exact absurd h (by simp)
          · rename_i aHat tail
            simp only [Except.ok.injEq, Prod.mk.injEq] at h
            obtain ⟨hargs, hstF⟩ := h
            obtain ⟨h1, h2⟩ := proveRounds_lengths C _ _ a U.b_vec _ st2 Ls Rs _ stF2 hpr
            rw [← hargs]
            rw [ilog2_eq_log2] at h1 h2
            exact ⟨h1, h2⟩

end SizeLemmas

section Completeness

variable {F : Type} [Field F] [DecidableEq F] {G : Type} [AddCommGroup G] [Module F G]
variable [DecidableEq G] {S : Type}

theorem eqEvals_length (x : List F) : (eqEvals x).length = 2 ^ x.length := by
  simp [eqEvals]

theorem commit_map_zip (f : F → F) :
    ∀ (rs : List F) (Ls : List G), rs.length = Ls.length →
      commit Ls (rs.map f) = ((rs.zip Ls).map fun p => f p.1 • p.2).sum
  | [], Ls, h => by
    have hL : Ls = [] := List.length_eq_zero.mp (h.symm ▸ rfl)
    subst hL
    simp [commit]
  | r :: rs, Ls, h => by
    match Ls, h with
    | L :: Ls, h =>
      have ih := commit_map_zip f rs Ls (by simpa using h)
      simp only [List.map_cons, List.zip_cons_cons, commit_cons, List.sum_cons, ih]

theorem verifyPhat_expand (rs : List F) (Ls Rs : List G) (P : G)
    (h1 : rs.length = Ls.length) (h2 : rs.length = Rs.length) :
    verifyPhat rs Ls Rs P
      = ((rs.zip Ls).map fun p => (p.1 * p.1) • p.2).sum
        + ((rs.zip Rs).map fun p => (p.1⁻¹ * p.1⁻¹) • p.2).sum + P := by
  unfold verifyPhat
  rw [commit_append (Ls ++ Rs) [P] _ [1]
      (by rw [List.length_append, List.length_append, List.length_map, List.length_map,
        List.length_map]; omega),
    commit_append Ls Rs _ _ (by rw [List.length_map, h1]),
    commit_singleton, one_smul, List.map_map]
  rw [commit_map_zip _ rs Ls h1, commit_map_zip _ rs Rs h2]
  rfl

theorem verifyRhs_expand (ckT : List G) (gc : G) (s : List F) (aHat bHat : F) :
    verifyRhs ckT [gc] s aHat bHat = aHat • commit ckT s + (aHat * bHat) • gc := by
  unfold verifyRhs
  rw [List.singleton_append, commit_pair]

theorem ipaProve_ok (C : Ctx F G S) (ck ck_c : List G) (U : InnerProductInstance F G)
    (a : List F) (st : S) (r0 : F) (st2 : S)
    (hlen : ¬ U.b_vec.length ≠ a.length)
    (hsq0 : C.squeeze lblSmallR (C.absorb lblU (instBytes C U) (C.domSep lblIPA st))
      = some (r0, st2))
    (hne0 : ¬ U.b_vec.length = 0)
    (Ls Rs : List G) (aH : F) (tail : List F) (stF : S)
    (hpr : proveRounds C (ck_c.map fun g => r0 • g) (ilog2 U.b_vec.length) a U.b_vec
      (ck.take U.b_vec.length) st2 = .ok (Ls, Rs, aH :: tail, stF)) :
    ipaProve C ck ck_c U a st = .ok (⟨Ls, Rs, aH⟩, stF) := by
  unfold ipaProve
  rw [if_neg hlen, hsq0]
  simp only [if_neg hne0, hpr]

/-- C1 (amended): completeness of the evaluation engine.  For every `ℓ` with
`1 ≤ ℓ < 32`, polynomial `f` of length `2^ℓ`, point `x` of length `ℓ`, true
evaluation `y = ⟨f, eq(x)⟩`, key of length at least `2^ℓ` and single-generator
scalar key, and every deterministic transcript whose squeezes always succeed
with a nonzero challenge, `EvaluationEngine::prove` on
`(ck, commit(ck, f), f, x, y)` succeeds and `EvaluationEngine::verify` on the
resulting argument with an identically seeded transcript returns Ok. -/
theorem C1_theorem (C : Ctx F G S) (ck cks : List G) (l : Nat) (f x : List F) (y : F)
    (st : S)
    (hl1 : 1 ≤ l) (hl2 : l < 32) (hx : x.length = l) (hf : f.length = 2 ^ l)
    (hck : 2 ^ l ≤ ck.length) (hcks : cks.length = 1)
    (hy : y = innerProduct f (eqEvals x))
    (hsq : ∀ st2 : S, ∃ r st3, C.squeeze lblSmallR st2 = some (r, st3) ∧ r ≠ 0) :
    ∃ (arg : InnerProductArgument F G) (stP stV : S),
      EEprove C ck cks (commit ck f) f x y st = .ok (arg, stP)
      ∧ EEverify C ck cks (commit ck f) x y arg st = .ok ((), stV) := by
  obtain ⟨gcs, hgcs⟩ := List.length_eq_one.mp hcks
  subst hgcs
  have hpow : 0 < (2 : Nat) ^ l := Nat.two_pow_pos l
  have hb : (eqEvals x).length = 2 ^ l := by rw [eqEvals_length, hx]
  obtain ⟨r0, st2, hsq0, hr0⟩ :=
    hsq (C.absorb lblU (instBytes C ⟨commit ck f, eqEvals x, y⟩) (C.domSep lblIPA st))
  have hckT : ((ck.take ((2 : Nat) ^ l)).length) = 2 ^ l := by
    rw [List.length_take]; omega
  obtain ⟨Ls, Rs, aH, stF, rs, hPR, hVC, hLs, hRs, hrslen, hnz, heq⟩ :=
    proveRounds_spec C (r0 • gcs) hsq l f (eqEvals x) (ck.take (2 ^ l)) st2 hf hb hckT
  have hfuel : ilog2 (eqEvals x).length = l := by
    rw [hb, ilog2_eq_log2, log2_two_pow_self]
  have hprove : ipaProve C ck [gcs] ⟨commit ck f, eqEvals x, y⟩ f st
      = .ok (⟨Ls, Rs, aH⟩, stF) := by
    refine ipaProve_ok C ck [gcs] _ f st r0 st2 (by simp [hb, hf]) hsq0
      (by simp only; rw [hb]; exact (Nat.two_pow_pos l).ne') Ls Rs aH [] stF ?_
    have hmap : ([gcs].map fun g => r0 • g) = [r0 • gcs] := rfl
    dsimp only
    rw [hmap, hfuel, hb]
    exact hPR
  have hz : (0 : F) ∉ rs := fun h0 => hnz 0 h0 rfl
  have hlenok : ¬ lenCheckFails (eqEvals x).length (2 ^ x.length) Ls.length Rs.length := by
    unfold lenCheckFails
    push_neg
    exact ⟨by rw [hb, hx], by rw [hLs, hx], by rw [hLs, hRs], by rw [hLs]; omega⟩
  have hverify := ipaVerify_final_eq C ck [gcs] (2 ^ x.length)
    ⟨commit ck f, eqEvals x, y⟩ ⟨Ls, Rs, aH⟩ st hlenok r0 st2 hsq0 rs stF hVC hz
  have hmap : ([gcs].map fun g => r0 • g) = [r0 • gcs] := rfl
  have hsEq : buildS rs (2 ^ x.length) = tensor rs (2 ^ l) := by
    rw [hx]
    exact buildS_eq_tensor rs hnz (2 ^ l) (by rw [hrslen])
  have hP : verifyP [r0 • gcs] (⟨commit ck f, eqEvals x, y⟩ : InnerProductInstance F G)
      = commit (ck.take (2 ^ l)) f + y • (r0 • gcs) := by
    unfold verifyP
    dsimp only
    rw [commit_singleton]
    congr 1
    rw [← commit_take ck f, hf]
  have hcond : verifyPhat rs Ls Rs
        (verifyP ([gcs].map fun g => r0 • g) ⟨commit ck f, eqEvals x, y⟩)
      = verifyRhs (ck.take (eqEvals x).length) ([gcs].map fun g => r0 • g)
          (buildS rs (2 ^ x.length)) aH
          (innerProduct (eqEvals x) (buildS rs (2 ^ x.length))) := by
    rw [hmap, hsEq, hP,
      verifyPhat_expand rs Ls Rs _ (by omega) (by omega),
      verifyRhs_expand, hb, hy, ← heq]
    abel
  refine ⟨⟨Ls, Rs, aH⟩, stF, stF, hprove, ?_⟩
  show ipaVerify C ck [gcs] (2 ^ x.length) ⟨commit ck f, eqEvals x, y⟩ ⟨Ls, Rs, aH⟩ st
    = .ok ((), stF)
  rw [hverify, if_pos hcond]

end Completeness

section RoundPointwise

variable {F : Type} [Field F] [DecidableEq F] {S : Type}

theorem foldVecA_getD (r rinv : F) (a : List F) {i : Nat} (hi : i < a.length / 2) :
    (foldVecA r rinv a).getD i 0 = r * a.getD i 0 + rinv * a.getD (a.length / 2 + i) 0 := by
  have hlen : i < (foldVecA r rinv a).length := by rw [foldVecA_length]; exact hi
  have h1 : i < a.length := by omega
  have h2 : a.length / 2 + i < a.length := by omega
  rw [List.getD_eq_getElem _ _ hlen]
  unfold foldVecA at hlen ⊢
  rw [List.getElem_zipWith, List.getElem_take, List.getElem_drop,
    List.getD_eq_getElem a 0 h1, List.getD_eq_getElem a 0 h2]
  ring

theorem foldVecB_getD (r rinv : F) (n : Nat) (b : List F) {i : Nat} (hi : i < n / 2)
    (hb : b.length = n) :
    (foldVecB r rinv n b).getD i 0 = rinv * b.getD i 0 + r * b.getD (n / 2 + i) 0 := by
  have hlen : i < (foldVecB r rinv n b).length := by
    rw [foldVecB_length _ _ _ _ hb]; exact hi
  have h1 : i < b.length := by omega
  have h2 : n / 2 + i < b.length := by omega
  rw [List.getD_eq_getElem _ _ hlen]
  unfold foldVecB at hlen ⊢
  rw [List.getElem_zipWith, List.getElem_take, List.getElem_take, List.getElem_drop,
    List.getD_eq_getElem b 0 h1, List.getD_eq_getElem b 0 h2]
  ring

end RoundPointwise

section ClaimTheorems

variable {F : Type} [Field F] [DecidableEq F] {G : Type} [AddCommGroup G] [Module F G]
variable [DecidableEq G] {S : Type}

/-- C2 (amended): `InnerProductArgument::prove` returns `InvalidInputLength`
exactly when the two input vectors have different lengths.  An equal but
non-power-of-two length is not rejected: the folding loop simply runs
`⌊log₂ n⌋` rounds. -/
theorem C2_theorem (C : Ctx F G S) (ck ck_c : List G) (U : InnerProductInstance F G)
    (a : List F) (st : S) :
    ipaProve C ck ck_c U a st = .error .invalidInputLength ↔ U.b_vec.length ≠ a.length :=
  ipaProve_invalidInputLength_iff C ck ck_c U a st

/-- C2 counterexample: on the equal-length vectors `a = b = [1,1,1]` of length
`3` (not a power of two) the prover does not return `InvalidInputLength`; it
produces a proof. -/
theorem C2_counterexample :
    ipaProve ctxOne [1, 1, 1] [1] ⟨0, [1, 1, 1], 0⟩ [1, 1, 1] ()
        ≠ .error .invalidInputLength
    ∧ (ipaProve ctxOne [1, 1, 1] [1] ⟨0, [1, 1, 1], 0⟩ [1, 1, 1] ()).isOk = true := by
  decide

/-- C3: `InnerProductArgument::verify` returns `InvalidInputLength` exactly
when at least one of the four up-front structural preconditions fails —
`|b| = n`, `n = 2^{|L_vec|}`, `|L_vec| = |R_vec|`, `|L_vec| < 32` — and since
the equivalence holds for every commitment, scalar and transcript content, the
check depends only on the lengths and returns before inspecting contents. -/
theorem C3_theorem (C : Ctx F G S) (ck ck_c : List G) (n : Nat)
    (U : InnerProductInstance F G) (arg : InnerProductArgument F G) (st : S) :
    ipaVerify C ck ck_c n U arg st = .error .invalidInputLength
      ↔ (U.b_vec.length ≠ n ∨ n ≠ 2 ^ arg.L_vec.length
          ∨ arg.L_vec.length ≠ arg.R_vec.length ∨ 32 ≤ arg.L_vec.length) :=
  ipaVerify_invalidInputLength_iff C ck ck_c n U arg st

/-- C4 (amended): for `1 ≤ ℓ < 32`, `n = 2^ℓ` and nonzero challenges
`r₀ … r_{ℓ-1}`, the verifier's vector `s` satisfies
`s[i] = Π_{j<ℓ} (r_j if bit (ℓ−1−j) of i is 1 else r_j⁻¹)` — the factor at a
set bit is `r_j`, not `r_j²` as the specification claims. -/
theorem C4_theorem (l : Nat) (rs : List F) (hl1 : 1 ≤ l) (hl2 : l < 32)
    (hlen : rs.length = l) (hnz : ∀ r ∈ rs, r ≠ 0) (i : Nat) (hi : i < 2 ^ l) :
    (buildS rs (2 ^ l)).getD i 0
      = ∏ j ∈ Finset.range l,
          if Nat.testBit i (l - 1 - j) then rs.getD j 0 else (rs.getD j 0)⁻¹ := by
  subst hlen
  exact buildS_getD_spec rs hnz (2 ^ rs.length) (Nat.le_refl _) i hi

/-- C4 witness: the amended identity evaluated at `ℓ = 1`, `r₀ = 2`, `i = 1`
over `GF(3)`. -/
theorem C4_witness :
    (buildS ([2] : List (Fin 3)) (2 ^ 1)).getD 1 0
      = ∏ j ∈ Finset.range 1,
          if Nat.testBit 1 (1 - 1 - j) then ([2] : List (Fin 3)).getD j 0
          else (([2] : List (Fin 3)).getD j 0)⁻¹ :=
  C4_theorem 1 [2] (by decide) (by decide) rfl (by decide) 1 (by decide)

/-- C4 counterexample: at `ℓ = 1`, `r₀ = 2`, `i = 1` over `GF(3)` the code
computes `s[1] = 2 = r₀`, while the claimed closed form `r₀²` evaluates to
`1`. -/
theorem C4_counterexample :
    ¬ ((buildS ([2] : List (Fin 3)) (2 ^ 1)).getD 1 0
      = ∏ j ∈ Finset.range 1,
          if Nat.testBit 1 (1 - 1 - j)
          then ([2] : List (Fin 3)).getD j 0 * ([2] : List (Fin 3)).getD j 0
          else (([2] : List (Fin 3)).getD j 0)⁻¹) := by
  decide

/-- C7: every successful run of `InnerProductArgument::prove` on vectors of
length `n = 2^ℓ` returns exactly `ℓ` left commitments, exactly `ℓ` right
commitments, and (by the shape of the proof object) one scalar. -/
theorem C7_theorem (C : Ctx F G S) (ck ck_c : List G) (U : InnerProductInstance F G)
    (a : List F) (st : S) (l : Nat) (arg : InnerProductArgument F G) (stF : S)
    (ha : a.length = 2 ^ l) (hb : U.b_vec.length = 2 ^ l)
    (h : ipaProve C ck ck_c U a st = .ok (arg, stF)) :
    arg.L_vec.length = l ∧ arg.R_vec.length = l := by
  obtain ⟨h1, h2⟩ := ipaProve_sizes C ck ck_c U a st arg stF h
  rw [hb, log2_two_pow_self] at h1 h2
  exact ⟨h1, h2⟩

/-- C7 witness: a successful concrete run at `n = 2` yields one `L` and one
`R`. -/
theorem C7_witness :
    ∃ (arg : InnerProductArgument (Fin 3) (Fin 3)) (stF : Unit),
      ipaProve ctxOne [1, 1] [1] ⟨0, [1, 1], 0⟩ [1, 1] () = .ok (arg, stF)
      ∧ arg.L_vec.length = 1 ∧ arg.R_vec.length = 1 := by
  cases heq : ipaProve ctxOne [1, 1] [1] ⟨0, [1, 1], 0⟩ [1, 1] () with
  | error e =>
    have hok : (ipaProve ctxOne [1, 1] [1] ⟨0, [1, 1], 0⟩ [1, 1] ()).isOk = true := by decide
    rw [heq] at hok
    exact absurd (show false = true from hok) (by decide)
  | ok p =>
    obtain ⟨arg, stF⟩ := p
    exact ⟨arg, stF, rfl, C7_theorem ctxOne [1, 1] [1] ⟨0, [1, 1], 0⟩ [1, 1] () 1 arg stF
      (by decide) (by decide) heq⟩

/-- C9: the inversion of a squeezed challenge fails exactly when the challenge
is zero, and under the hypothesis that every challenge squeezed from the
transcript is nonzero, `prove` never aborts with the zero-inversion failure. -/
theorem C9_theorem (C : Ctx F G S) (ck ck_c : List G) (U : InnerProductInstance F G)
    (a : List F) (st : S)
    (hnz : ∀ (st2 : S) (r : F) (st3 : S), C.squeeze lblSmallR st2 = some (r, st3) → r ≠ 0) :
    (∀ r : F, fieldInvert r = none ↔ r = 0)
    ∧ ipaProve C ck ck_c U a st ≠ .error .invertZero := by
  constructor
  · intro r
    unfold fieldInvert
    by_cases h : r = 0
    · simp [h]
    · simp [h]
  · exact ipaProve_ne_invertZero C ck ck_c U a st hnz

/-- C9 witness: the conjunction instantiated over `GF(3)` with a transcript
whose squeezes always return the nonzero challenge `1`. -/
theorem C9_witness :
    (∀ r : Fin 3, fieldInvert r = none ↔ r = 0)
    ∧ ipaProve ctxOne [1] [1] ⟨0, [1], 0⟩ [1] () ≠ .error .invertZero :=
  C9_theorem ctxOne [1] [1] ⟨0, [1], 0⟩ [1] () (by
    intro st2 r st3 h
    have h2 : some ((1 : Fin 3), st2) = some (r, st3) := h
    simp only [Option.some.injEq, Prod.mk.injEq] at h2
    rw [← h2.1]
    decide)

/-- C1 witness: a complete honest run over `GF(3)` at `ℓ = 1` with the
transcript that always squeezes the nonzero challenge `1`. -/
theorem C1_witness :
    ∃ (arg : InnerProductArgument (Fin 3) (Fin 3)) (stP stV : Unit),
      EEprove ctxOne [1, 1] [1] (commit ([1, 1] : List (Fin 3)) ([1, 0] : List (Fin 3)))
          [1, 0] [0] (innerProduct ([1, 0] : List (Fin 3)) (eqEvals [0])) ()
          = .ok (arg, stP)
      ∧ EEverify ctxOne [1, 1] [1] (commit ([1, 1] : List (Fin 3)) ([1, 0] : List (Fin 3)))
          [0] (innerProduct ([1, 0] : List (Fin 3)) (eqEvals [0])) arg ()
          = .ok ((), stV) :=
  C1_theorem ctxOne [1, 1] [1] 1 [1, 0] [0]
    (innerProduct ([1, 0] : List (Fin 3)) (eqEvals [0])) ()
    (by decide) (by decide) (by decide) (by decide) (by decide) (by decide) rfl
    (fun st2 => ⟨1, st2, rfl, by decide⟩)

/-- C1 counterexample: under the deterministic transcript whose squeezes always
return the challenge `0`, the prover aborts (the challenge inversion fails), so
prove-then-verify does not return Ok even though the commitment and the claimed
evaluation are honest; the claim fails for this transcript seed. -/
theorem C1_counterexample :
    (1 : Fin 3) = commit ([1, 1] : List (Fin 3)) ([1, 0] : List (Fin 3))
    ∧ (1 : Fin 3) = innerProduct ([1, 0] : List (Fin 3)) (eqEvals [0])
    ∧ EEprove ctxZero [1, 1] [1] 1 [1, 0] [0] 1 () = .error .invertZero := by
  decide

/-- C5: when the verifier reaches its final comparison — the up-front length
check passed, the initial squeeze and the challenge replay succeeded, and no
replayed challenge is zero — it returns Ok exactly when the recombined
commitment `P̂ = Σ rᵢ²·Lᵢ + Σ rᵢ⁻²·Rᵢ + P` equals the commitment of
`[â, â·b̂]` under the folded key `ĉk ∥ ck_c`, and returns `InvalidPCS`
whenever that group equation fails. -/
theorem C5_theorem (C : Ctx F G S) (ck ck_c : List G) (n : Nat)
    (U : InnerProductInstance F G) (arg : InnerProductArgument F G) (st : S)
    (hlen : ¬ lenCheckFails U.b_vec.length n arg.L_vec.length arg.R_vec.length)
    (r0 : F) (st2 : S)
    (hsq : C.squeeze lblSmallR (C.absorb lblU (instBytes C U) (C.domSep lblIPA st))
      = some (r0, st2))
    (rs : List F) (st3 : S)
    (hvc : verifyChallenges C (arg.L_vec.zip arg.R_vec) st2 = some (rs, st3))
    (hz : (0 : F) ∉ rs) :
    ipaVerify C ck ck_c n U arg st
      = if verifyPhat rs arg.L_vec arg.R_vec (verifyP (ck_c.map fun g => r0 • g) U)
            = verifyRhs (ck.take U.b_vec.length) (ck_c.map fun g => r0 • g) (buildS rs n)
                arg.a_hat (innerProduct U.b_vec (buildS rs n))
        then .ok ((), st3)
        else .error .invalidPCS :=
  ipaVerify_final_eq C ck ck_c n U arg st hlen r0 st2 hsq rs st3 hvc hz

/-- C5 witness: the characterization applied to a concrete honest run at
`n = 1` (the comparison evaluates to true, so the verifier accepts). -/
theorem C5_witness :
    ipaVerify ctxOne [1] [1] 1 ⟨1, [1], 1⟩ ⟨[], [], 1⟩ () = .ok ((), ()) := by
  rw [C5_theorem ctxOne [1] [1] 1 ⟨1, [1], 1⟩ ⟨[], [], 1⟩ () (by decide) 1 () rfl [] ()
    rfl (by decide)]
  decide

/-- C6: in a prover folding round on vectors `a`, `b` of even length `n` with
round challenge `r ≠ 0`, the folded vectors have length `n/2` and satisfy
`a'[i] = r·a[i] + r⁻¹·a[n/2+i]` and `b'[i] = r⁻¹·b[i] + r·b[n/2+i]` for every
`i < n/2`, and the folded key is `fold(ck_L, ck_R, r⁻¹, r)`. -/
theorem C6_theorem (C : Ctx F G S) (ck_c : List G) (a b : List F) (ck : List G)
    (st : S) (r : F) (st3 : S) (n : Nat) (hn : n = a.length) (heven : n % 2 = 0)
    (hb : b.length = n)
    (hrs : C.squeeze lblSmallR (roundSt C ck_c a b ck st) = some (r, st3))
    (hrne : r ≠ 0) :
    proveInner C ck_c a b ck st
      = .ok (roundL ck_c a b ck, roundR ck_c a b ck, foldVecA r r⁻¹ a,
          foldVecB r r⁻¹ n b, foldKey r⁻¹ r (ck.take (n / 2)) (ck.drop (n / 2)), st3)
    ∧ (foldVecA r r⁻¹ a).length = n / 2
    ∧ (foldVecB r r⁻¹ n b).length = n / 2
    ∧ ∀ i, i < n / 2 →
        (foldVecA r r⁻¹ a).getD i 0 = r * a.getD i 0 + r⁻¹ * a.getD (n / 2 + i) 0
        ∧ (foldVecB r r⁻¹ n b).getD i 0 = r⁻¹ * b.getD i 0 + r * b.getD (n / 2 + i) 0 := by
  subst hn
  refine ⟨proveInner_ok C ck_c a b ck st r st3 hrs hrne, foldVecA_length r r⁻¹ a,
    foldVecB_length r r⁻¹ a.length b hb, ?_⟩
  intro i hi
  exact ⟨foldVecA_getD r r⁻¹ a hi, foldVecB_getD r r⁻¹ a.length b hi hb⟩

/-- C6 witness: one concrete folding round at `n = 2` over `GF(3)` with
challenge `1`. -/
theorem C6_witness :
    proveInner ctxOne [1] [1, 2] [2, 1] [2, 1] ()
      = .ok (roundL ([1] : List (Fin 3)) ([1, 2] : List (Fin 3)) [2, 1] [2, 1],
          roundR ([1] : List (Fin 3)) ([1, 2] : List (Fin 3)) [2, 1] [2, 1],
          foldVecA 1 (1 : Fin 3)⁻¹ [1, 2], foldVecB 1 (1 : Fin 3)⁻¹ 2 [2, 1],
          foldKey (1 : Fin 3)⁻¹ 1 (([2, 1] : List (Fin 3)).take (2 / 2))
            (([2, 1] : List (Fin 3)).drop (2 / 2)), ())
    ∧ (foldVecA 1 (1 : Fin 3)⁻¹ [1, 2]).length = 2 / 2
    ∧ (foldVecB 1 (1 : Fin 3)⁻¹ 2 [2, 1]).length = 2 / 2
    ∧ ∀ i, i < 2 / 2 →
        (foldVecA 1 (1 : Fin 3)⁻¹ [1, 2]).getD i 0
          = 1 * ([1, 2] : List (Fin 3)).getD i 0
            + (1 : Fin 3)⁻¹ * ([1, 2] : List (Fin 3)).getD (2 / 2 + i) 0
        ∧ (foldVecB 1 (1 : Fin 3)⁻¹ 2 [2, 1]).getD i 0
          = (1 : Fin 3)⁻¹ * ([2, 1] : List (Fin 3)).getD i 0
            + 1 * ([2, 1] : List (Fin 3)).getD (2 / 2 + i) 0 :=
  C6_theorem ctxOne [1] [1, 2] [2, 1] [2, 1] () 1 () 2 rfl (by decide) (by decide) rfl
    (by decide)

/-- C8: transcript determinism of `EvaluationEngine::prove` — two invocations
with equal inputs and equal initial transcript states return equal results,
and in particular two successful runs yield componentwise identical proofs. -/
theorem C8_theorem (C : Ctx F G S) (ck1 ck2 cks1 cks2 : List G) (comm1 comm2 : G)
    (poly1 poly2 point1 point2 : List F) (ev1 ev2 : F) (st1 st2 : S)
    (hck : ck1 = ck2) (hcks : cks1 = cks2) (hcomm : comm1 = comm2)
    (hpoly : poly1 = poly2) (hpoint : point1 = point2) (hev : ev1 = ev2)
    (hst : st1 = st2) :
    EEprove C ck1 cks1 comm1 poly1 point1 ev1 st1
        = EEprove C ck2 cks2 comm2 poly2 point2 ev2 st2
    ∧ ∀ (arg1 arg2 : InnerProductArgument F G) (stP1 stP2 : S),
        EEprove C ck1 cks1 comm1 poly1 point1 ev1 st1 = .ok (arg1, stP1) →
        EEprove C ck2 cks2 comm2 poly2 point2 ev2 st2 = .ok (arg2, stP2) →
        arg1.L_vec = arg2.L_vec ∧ arg1.R_vec = arg2.R_vec ∧ arg1.a_hat = arg2.a_hat := by
  subst hck hcks hcomm hpoly hpoint hev hst
  refine ⟨rfl, ?_⟩
  intro arg1 arg2 stP1 stP2 h1 h2
  rw [h1] at h2
  simp only [Except.ok.injEq, Prod.mk.injEq] at h2
  obtain ⟨ha, _⟩ := h2
  subst ha
  exact ⟨rfl, rfl, rfl⟩

/-- C8 witness: determinism instantiated on a concrete input over `GF(3)`. -/
theorem C8_witness :
    (EEprove ctxOne [1, 1] [1] 1 [1, 0] [0] 1 ()
        = EEprove ctxOne [1, 1] [1] 1 [1, 0] [0] 1 ())
    ∧ ∀ (arg1 arg2 : InnerProductArgument (Fin 3) (Fin 3)) (stP1 stP2 : Unit),
        EEprove ctxOne [1, 1] [1] 1 [1, 0] [0] 1 () = .ok (arg1, stP1) →
        EEprove ctxOne [1, 1] [1] 1 [1, 0] [0] 1 () = .ok (arg2, stP2) →
        arg1.L_vec = arg2.L_vec ∧ arg1.R_vec = arg2.R_vec ∧ arg1.a_hat = arg2.a_hat :=
  C8_theorem ctxOne [1, 1] [1, 1] [1] [1] 1 1 [1, 0] [1, 0] [0] [0] 1 1 () ()
    rfl rfl rfl rfl rfl rfl rfl

/-- C10: at the empty point (`ℓ = 0`) the engine does not error: `b = eq(x)`
has length `1`, the folding loop runs zero times, and `prove` returns the
argument with empty `L_vec`, empty `R_vec` and `a_hat = poly[0]`; moreover the
verifier's up-front length check accepts this shape since `1 = 2^0`. -/
theorem C10_theorem (C : Ctx F G S) (ck cks : List G) (comm : G) (p y : F) (st : S)
    (r0 : F) (st2 : S)
    (hsq : C.squeeze lblSmallR
      (C.absorb lblU (instBytes C ⟨comm, eqEvals ([] : List F), y⟩) (C.domSep lblIPA st))
      = some (r0, st2)) :
    EEprove C ck cks comm [p] [] y st = .ok (⟨[], [], p⟩, st2)
    ∧ ¬ lenCheckFails (eqEvals ([] : List F)).length (2 ^ ([] : List F).length) 0 0 := by
  constructor
  · show ipaProve C ck cks ⟨comm, eqEvals ([] : List F), y⟩ [p] st = .ok (⟨[], [], p⟩, st2)
    refine ipaProve_ok C ck cks _ [p] st r0 st2 ?_ hsq ?_ [] [] p [] st2 ?_
    · show ¬ ((eqEvals ([] : List F)).length ≠ ([p] : List F).length)
      rw [eqEvals_length]
      norm_num
    · show ¬ ((eqEvals ([] : List F)).length = 0)
      rw [eqEvals_length]
      norm_num
    · rfl
  · unfold lenCheckFails
    push_neg
    exact ⟨by rw [eqEvals_length], rfl, rfl, by omega⟩

/-- C10 witness: the empty-point run over `GF(3)` with `poly = [2]`. -/
theorem C10_witness :
    EEprove ctxOne [1] [1] 0 [2] [] 2 () = .ok (⟨[], [], 2⟩, ())
    ∧ ¬ lenCheckFails (eqEvals ([] : List (Fin 3))).length
        (2 ^ ([] : List (Fin 3)).length) 0 0 :=
  C10_theorem ctxOne [1] [1] 0 2 2 () 1 () rfl

end ClaimTheorems

end IpaPC
